import Mathlib

/-!
Verification development for the Sha1-Hulud scanner.

Shallow embedding of `src/sha1hulud_scanner`: the vulnerability database
loader (`parsers/database_parser.py`), the three lock-file parsers
(`parsers/npm_parser.py`, `parsers/yarn_parser.py`), the matcher and scan
orchestrator (`scanner.py`), and the result data model
(`models/*.py`).  Python strings are modelled as Lean `String` with
character-level helpers mirroring `str.strip`, `str.split`, `str.rfind`
and friends (inputs are treated as ASCII; Lean's `Char.isWhitespace`
stands in for Python's whitespace class).  Python sets and dicts are
modelled as lists with membership-guarded insertion, preserving the
insertion order that CPython dicts guarantee.
-/

namespace ShaiHulud

/-! ### Character-level helpers for Python string operations -/

def isSpace (c : Char) : Bool := c.isWhitespace

/-- Python `str.lstrip()` on a character list. -/
def lstripL (cs : List Char) : List Char := cs.dropWhile isSpace

/-- Python `str.rstrip()` on a character list. -/
def rstripL (cs : List Char) : List Char := (cs.reverse.dropWhile isSpace).reverse

/-- Python `str.strip()` on a character list. -/
def stripL (cs : List Char) : List Char := rstripL (lstripL cs)

/-- Python `str.strip(c)` for a single character `c` (removes every
leading and trailing occurrence). -/
def stripCharL (c : Char) (cs : List Char) : List Char :=
  ((cs.dropWhile (· = c)).reverse.dropWhile (· = c)).reverse

/-- Python `str.strip()` on a `String`. -/
def pyStrip (s : String) : String := String.mk (stripL s.data)

/-- Python falsy-or-blank test `not s or not s.strip()`: true iff every
character is whitespace (including the empty string). -/
def isBlank (s : String) : Bool := s.data.all isSpace

/-- Python `str.split(sep)` for a single-character separator.
`"".split("/") = [""]` holds in this model as well. -/
def splitCharAux (sep : Char) : List Char → List Char → List (List Char)
  | [], acc => [acc.reverse]
  | c :: rest, acc =>
    if c = sep then acc.reverse :: splitCharAux sep rest []
    else splitCharAux sep rest (c :: acc)

def splitChar (sep : Char) (s : String) : List String :=
  (splitCharAux sep s.data []).map String.mk

/-- Python `str.split("||")`: greedy left-to-right scan for the
two-character separator. -/
def splitPipesAux : List Char → List Char → List (List Char)
  | [], acc => [acc.reverse]
  | '|' :: '|' :: rest, acc => acc.reverse :: splitPipesAux rest []
  | c :: rest, acc => splitPipesAux rest (c :: acc)

/-- Index of the last occurrence of `t`, mirroring Python `rfind`
(`none` plays the role of `-1`). -/
def lastIdxOf {α : Type} [DecidableEq α] : List α → α → Option Nat
  | [], _ => none
  | c :: rest, t =>
    match lastIdxOf rest t with
    | some i => some (i + 1)
    | none => if c = t then some 0 else none

/-- First-occurrence deduplication (determinisation of a Python `set`
accumulated by insertion; CPython set iteration order is unspecified). -/
def dedupFirstAux {α : Type} [DecidableEq α] (seen : List α) : List α → List α
  | [] => []
  | x :: xs => if x ∈ seen then dedupFirstAux seen xs else x :: dedupFirstAux (x :: seen) xs

def dedupFirst {α : Type} [DecidableEq α] (xs : List α) : List α := dedupFirstAux [] xs

/-! ### Data model (`models/`) -/

/-- `models/__init__.py` `LockFileType`. -/
inductive LockFileType
  | npm
  | yarn
  | pnpm
deriving DecidableEq, Repr

/-- `models/installed_package.py` `InstalledPackage` (fields only;
the constructor validation is `mkInstalledPackage`). -/
structure InstalledPackage where
  name : String
  version : String
  filePath : String
  fileType : LockFileType
deriving DecidableEq, Repr

def InstalledPackage.key (p : InstalledPackage) : String × String := (p.name, p.version)

/-- `InstalledPackage.__post_init__`: raises `ValueError` on a blank
name or version. -/
def mkInstalledPackage (name version filePath : String) (ft : LockFileType) :
    Except String InstalledPackage :=
  if isBlank name then .error "Package name must not be empty"
  else if isBlank version then .error "Package version must not be empty"
  else .ok ⟨name, version, filePath, ft⟩

/-- `models/vulnerable_package.py` `VulnerablePackage` (fields only). -/
structure VulnerablePackage where
  name : String
  version : String
  source : String
deriving DecidableEq, Repr

def VulnerablePackage.key (p : VulnerablePackage) : String × String := (p.name, p.version)

def validSource (s : String) : Bool := s = "packages.md" || s = "wiz-packages.csv"

/-- `VulnerablePackage.__post_init__` validation. -/
def mkVulnerablePackage (name version source : String) : Except String VulnerablePackage :=
  if isBlank name then .error "Package name must not be empty"
  else if isBlank version then .error "Package version must not be empty"
  else if !(validSource source) then .error "Invalid source"
  else .ok ⟨name, version, source⟩

/-- `models/scan_result.py` `ScanResult` (fields only). -/
structure ScanResult where
  packageName : String
  installedVersion : String
  vulnerableVersions : List String
  filePath : String
  fileType : LockFileType
deriving DecidableEq, Repr

/-- `ScanResult.__post_init__`: raises `ValueError` on blank name or
version, or an empty vulnerable-versions list. -/
def mkScanResult (n v : String) (vs : List String) (fp : String) (ft : LockFileType) :
    Except String ScanResult :=
  if isBlank n then .error "Package name must not be empty"
  else if isBlank v then .error "Installed version must not be empty"
  else if vs.isEmpty then .error "Vulnerable versions list must not be empty"
  else .ok ⟨n, v, vs, fp, ft⟩

/-- `models/scan_result.py` `ScanSummary`, as defined in the source:
it carries `files_scanned`, `vulnerabilities` and string `warnings`.
(The source dataclass has no version-mismatch field; `scan_date` is a
wall-clock timestamp and is not modelled.) -/
structure ScanSummary where
  targetPath : String
  filesScanned : Nat
  vulnerabilities : List ScanResult
  warnings : List String
deriving DecidableEq, Repr

/-! ### Database loader (`parsers/database_parser.py`) -/

/-- `MD_PATTERN = ^-\s+(.+)$` applied with `re.match` to the stripped
line: a leading dash, at least one whitespace character, then at least
one further character; returns capture group 1 (the run after the
maximal whitespace run, since the line has been stripped). -/
def mdPatternGroup (l : List Char) : Option (List Char) :=
  match l with
  | '-' :: rest =>
    if rest.takeWhile isSpace = [] then none
    else
      let g := rest.dropWhile isSpace
      if g = [] then none else some g
  | _ => none

/-- Outcome of one line of `packages.md` in
`DatabaseParser._parse_packages_md`. -/
inductive MdOutcome
  | ignored
  | warned
  | entry (name version : String)
deriving DecidableEq, Repr

/-- One loop iteration of `DatabaseParser._parse_packages_md`: strip the
line, skip blanks and lines without a leading dash, match `MD_PATTERN`,
split the entry at its last `@`, reject a missing or leading `@` and
empty halves, then run the `VulnerablePackage` validation (a
`ValueError` is caught and turned into a warning). -/
def mdLineOutcome (line : String) : MdOutcome :=
  let l := stripL line.data
  if l = [] then .ignored
  else if l.head? ≠ some '-' then .ignored
  else
    match mdPatternGroup l with
    | none => .warned
    | some g =>
      let entry := stripL g
      match lastIdxOf entry '@' with
      | none => .warned
      | some i =>
        if i = 0 then .warned
        else
          let name := String.mk (entry.take i)
          let version := String.mk (entry.drop (i + 1))
          if name = "" || version = "" then .warned
          else
            match mkVulnerablePackage name version "packages.md" with
            | .error _ => .warned
            | .ok _ => .entry name version

/-- `DatabaseParser._parse_packages_md` over the file's lines. -/
def parsePackagesMd (lines : List String) : List VulnerablePackage :=
  lines.filterMap (fun l =>
    match mdLineOutcome l with
    | .entry n v => some ⟨n, v, "packages.md"⟩
    | _ => none)

/-- The per-part normalisation of `DatabaseParser._parse_version_spec`:
strip the part, then strip one leading `=` (and strip again). -/
def normAltCore (part0 : List Char) : List Char :=
  let p1 := stripL part0
  if p1.head? = some '=' then stripL (p1.drop 1) else p1

/-- One part of `_parse_version_spec`: normalise, keep only when
non-empty. -/
def normAlt (part0 : List Char) : Option String :=
  if normAltCore part0 = [] then none else some (String.mk (normAltCore part0))

/-- `DatabaseParser._parse_version_spec`: split on `||`, normalise each
part, keep the non-empty ones. -/
def parseVersionSpec (spec : String) : List String :=
  (splitPipesAux spec.data []).filterMap normAlt

/-- One row of `DatabaseParser._parse_wiz_csv` (fields `Package` and
`Version` of the CSV row): strip both, skip the row with a warning when
either is empty, expand the version specification and build one entry
per alternative (construction `ValueError`s are caught and skipped). -/
def parseWizRow (nameField versionField : String) : List VulnerablePackage :=
  let name := pyStrip nameField
  let vspec := pyStrip versionField
  if name = "" || vspec = "" then []
  else
    (parseVersionSpec vspec).filterMap (fun v =>
      match mkVulnerablePackage name v "wiz-packages.csv" with
      | .error _ => none
      | .ok p => some p)

/-- `DatabaseParser._parse_wiz_csv` over the data rows. -/
def parseWizCsv (rows : List (String × String)) : List VulnerablePackage :=
  (rows.map (fun r => parseWizRow r.1 r.2)).flatten

/-- The two index structures built by `DatabaseParser.load_all`. -/
structure VulnIndex where
  set : List (String × String)
  byName : List (String × List String)
deriving DecidableEq, Repr

/-- Python `set.add` (membership-guarded; order of the model is
insertion order). -/
def addToSet (s : List (String × String)) (k : String × String) : List (String × String) :=
  if k ∈ s then s else s ++ [k]

/-- The dict update in `load_all`:
`if name not in d: d[name] = []; if version not in d[name]: d[name].append(version)`. -/
def addVersion : List (String × List String) → String → String → List (String × List String)
  | [], n, v => [(n, [v])]
  | (n', vs) :: rest, n, v =>
    if n' = n then (n', if v ∈ vs then vs else vs ++ [v]) :: rest
    else (n', vs) :: addVersion rest n v

/-- Python dict lookup returning `None` when absent. -/
def dictGet (d : List (String × List String)) (n : String) : Option (List String) :=
  match d with
  | [] => none
  | (n', vs) :: rest => if n' = n then some vs else dictGet rest n

/-- One iteration of the accumulation loop in `load_all`. -/
def stepIdx (idx : VulnIndex) (p : VulnerablePackage) : VulnIndex :=
  ⟨addToSet idx.set (p.name, p.version), addVersion idx.byName p.name p.version⟩

/-- The accumulation in `load_all` over a list of parsed entries. -/
def loadIndex (entries : List VulnerablePackage) : VulnIndex :=
  entries.foldl stepIdx ⟨[], []⟩

/-- `DatabaseParser.load_all`: entries from `packages.md` are folded in
first, then entries from `wiz-packages.csv` (the existence checks and
the construction-time fatal errors are outside this model). -/
def loadAll (mdLines : List String) (csvRows : List (String × String)) : VulnIndex :=
  loadIndex (parsePackagesMd mdLines ++ parseWizCsv csvRows)

/-- Mutual consistency of the two index structures built by
`load_all`: any pair in the exact-match set has its name as a key of
the by-name map, with the version in that key's list. -/
def idxConsistent (idx : VulnIndex) : Prop :=
  ∀ n v, (n, v) ∈ idx.set → ∃ vs, dictGet idx.byName n = some vs ∧ v ∈ vs

/-! ### Matcher and scan orchestrator (`scanner.py`) -/

/-- The `ScanResult` built inside `Scanner.match_packages` for a
matched package: the full version list for the name, with
`[pkg.version]` as the dict-lookup default. -/
def resultFor (idx : VulnIndex) (p : InstalledPackage) : ScanResult :=
  ⟨p.name, p.version, (dictGet idx.byName p.name).getD [p.version], p.filePath, p.fileType⟩

/-- `Scanner.match_packages`: one `ScanResult` per record whose
`(name, version)` is in the exact-match set, in input order. -/
def matchPackages (idx : VulnIndex) : List InstalledPackage → List ScanResult
  | [] => []
  | p :: rest =>
    if (p.name, p.version) ∈ idx.set then resultFor idx p :: matchPackages idx rest
    else matchPackages idx rest

/-- The filesystem-facing inputs of `Scanner.scan_file` for one target:
existence, file-ness, whether some registered parser claims the
filename, and the outcome of `parser.parse` (`Except.error` models an
exception propagating out of `parse`). -/
structure FileTarget where
  fileExists : Bool
  isFile : Bool
  parserFound : Bool
  parseOutcome : Except String (List InstalledPackage)

/-- `Scanner.scan_file` (the path string stands for the resolved path;
the no-parser warning uses the basename in the source, abstracted here
into the path argument). -/
def scanFile (idx : VulnIndex) (path : String) (t : FileTarget) : ScanSummary :=
  if !t.fileExists then ⟨path, 0, [], ["File not found: " ++ path]⟩
  else if !t.isFile then ⟨path, 0, [], ["Path is not a file: " ++ path]⟩
  else if !t.parserFound then ⟨path, 0, [], ["No parser available for: " ++ path]⟩
  else
    match t.parseOutcome with
    | .error e => ⟨path, 0, [], ["Failed to parse " ++ path ++ ": " ++ e]⟩
    | .ok pkgs => ⟨path, 1, matchPackages idx pkgs, []⟩

/-- A discovered filesystem entry: its path segments (basename last)
and whether it is a regular file. -/
structure FsEntry where
  parts : List String
  isFile : Bool
deriving DecidableEq, Repr

/-- `Scanner.LOCK_FILE_NAMES`, the class-level dict. -/
def lockFileNamesDefault : List (String × LockFileType) :=
  [("package-lock.json", .npm), ("yarn.lock", .yarn), ("pnpm-lock.yaml", .pnpm)]

/-- Python `name in dict`. -/
def dictHasKey (d : List (String × LockFileType)) (k : String) : Bool :=
  d.any (fun pr => pr.1 = k)

def basenameOf (e : FsEntry) : String := e.parts.getLastD ""

/-- `Scanner.discover_lock_files` body, parameterised by the lock-file
name dict it consults (`self.LOCK_FILE_NAMES`): keep regular files whose
basename is a known lock-file name and none of whose path segments is
`node_modules`. -/
def discoverLockFilesWith (lockNames : List (String × LockFileType))
    (entries : List FsEntry) : List FsEntry :=
  entries.filter (fun e =>
    e.isFile && dictHasKey lockNames (basenameOf e) && !(e.parts.contains "node_modules"))

/-- `Scanner.discover_lock_files` with the built-in class dict. -/
def discoverLockFiles (entries : List FsEntry) : List FsEntry :=
  discoverLockFilesWith lockFileNamesDefault entries

/-! ### `Scanner.register_parser` and Python attribute semantics -/

/-- The `filename`/`file_type` capability of a registered parser. -/
structure ParserSpec where
  filename : String
  fileType : LockFileType
deriving DecidableEq, Repr

/-- A world with the single class-level `Scanner.LOCK_FILE_NAMES` dict
and the per-instance `_parsers` lists of two scanner instances `a` and
`b`.  `self.LOCK_FILE_NAMES[k] = v` mutates the class dict found by
attribute lookup (no instance ever assigns an instance attribute of
that name), so both instances — and any instance constructed later —
read the same dict. -/
structure PyWorld where
  classLockFileNames : List (String × LockFileType)
  parsersA : List ParserSpec
  parsersB : List ParserSpec
deriving DecidableEq, Repr

/-- Python `d[k] = v`: replace in place when the key exists, else
append. -/
def dictInsert : List (String × LockFileType) → String → LockFileType →
    List (String × LockFileType)
  | [], k, v => [(k, v)]
  | (k', v') :: rest, k, v =>
    if k' = k then (k, v) :: rest else (k', v') :: dictInsert rest k v

/-- `Scanner.register_parser` called on instance `a`: append to `a`'s
`_parsers`, update the shared class dict. -/
def registerParserA (w : PyWorld) (p : ParserSpec) : PyWorld :=
  { classLockFileNames := dictInsert w.classLockFileNames p.filename p.fileType,
    parsersA := w.parsersA ++ [p],
    parsersB := w.parsersB }

/-- `discover_lock_files` as run by any instance in the world: every
instance's `self.LOCK_FILE_NAMES` resolves to the one class dict. -/
def scannerDiscover (w : PyWorld) (entries : List FsEntry) : List FsEntry :=
  discoverLockFilesWith w.classLockFileNames entries

/-! ### NPM parser (`parsers/npm_parser.py`) -/

/-- The value under one key of the v2/v3 `packages` object: either not
a dict (skipped) or a dict with an optional `version` string. -/
inductive NpmInfo
  | nonDict
  | dict (version : Option String)
deriving DecidableEq, Repr

/-- `NpmParser._extract_package_name` on the already-split path
segments: locate the last `node_modules` segment; the name is the next
segment, or the next two joined by `/` when the next one starts with
`@` and a second one exists. -/
def extractFromParts (parts : List String) : String :=
  match lastIdxOf parts "node_modules" with
  | none => ""
  | some i =>
    if parts.length ≤ i + 1 then ""
    else
      match parts.drop (i + 1) with
      | [] => ""
      | r0 :: rest =>
        if r0.data.head? = some '@' then
          match rest with
          | r1 :: _ => r0 ++ "/" ++ r1
          | [] => r0
        else r0

/-- `NpmParser._extract_package_name`. -/
def extractPackageName (path : String) : String :=
  extractFromParts (splitChar '/' path)

/-- `NpmParser._parse_v2_v3`: skip non-dict infos, the empty root key,
paths without a usable name and entries without a (truthy) version;
construction `ValueError`s are caught and skipped. -/
def parseV2V3 (pkgs : List (String × NpmInfo)) (fp : String) : List InstalledPackage :=
  pkgs.filterMap (fun pr =>
    match pr.2 with
    | .nonDict => none
    | .dict ver =>
      if pr.1 = "" then none
      else
        let name := extractPackageName pr.1
        if name = "" then none
        else
          match ver with
          | none => none
          | some v =>
            if v = "" then none
            else
              match mkInstalledPackage name v fp LockFileType.npm with
              | .error _ => none
              | .ok p => some p)

/-- A value of the v1 nested `dependencies` object: not a dict, or a
dict with an optional `version` and a nested `dependencies` map. -/
inductive V1Info
  | nonDict
  | node (version : Option String) (nested : List (String × V1Info))

/-- `NpmParser._parse_dependencies_recursive`: emit a record when a
truthy version is present (catching the `ValueError`), then recurse
into nested dependencies, then continue with the remaining siblings. -/
def parseV1List (fp : String) : List (String × V1Info) → List InstalledPackage
  | [] => []
  | (_, .nonDict) :: rest => parseV1List fp rest
  | (n, .node ver nested) :: rest =>
    (match ver with
     | none => []
     | some v =>
       if v = "" then []
       else
         match mkInstalledPackage n v fp LockFileType.npm with
         | .error _ => []
         | .ok p => [p])
    ++ parseV1List fp nested ++ parseV1List fp rest

/-- The structural decode of a `package-lock.json` file: `json.load`
either raises `JSONDecodeError` (malformed) or yields a document with
a `lockfileVersion` (default 1), a `packages` object and a
`dependencies` object. -/
inductive NpmJson
  | malformed (err : String)
  | doc (lockfileVersion : Int) (packages : List (String × NpmInfo))
      (dependencies : List (String × V1Info))

/-- `NpmParser.parse` after the file has been read: malformed JSON is
caught inside the parser, a warning is logged (to the logger, not to
any summary) and the empty record list is returned; otherwise the
version discriminator selects the v2/v3 or the v1 walk. -/
def npmParse (j : NpmJson) (fp : String) : List InstalledPackage :=
  match j with
  | .malformed _ => []
  | .doc ver pkgs deps => if 2 ≤ ver then parseV2V3 pkgs fp else parseV1List fp deps

/-- Whether `NpmParser.parse` logged its malformed-content warning
(`logger.warning`, line 50 of `npm_parser.py`). -/
def npmLogsParseWarning (j : NpmJson) : Bool :=
  match j with
  | .malformed _ => true
  | .doc _ _ _ => false

/-- `Scanner.scan_file` on an existing `package-lock.json` with the
given decoded content: `NpmParser.parse` returns normally even for
malformed JSON, so the `try`/`except` in `scan_file` sees a normal
return. -/
def scanFileNpm (idx : VulnIndex) (path : String) (j : NpmJson) : ScanSummary :=
  scanFile idx path ⟨true, true, true, .ok (npmParse j path)⟩

/-! ### Yarn parser (`parsers/yarn_parser.py`) -/

/-- `YarnParser._extract_package_name`: for a scoped specifier the
separating `@` is searched from position 1, otherwise from 0 and the
name must be non-empty. -/
def extractYarnNameL (spec : List Char) : Option (List Char) :=
  match spec with
  | '@' :: rest =>
    match rest.findIdx? (· = '@') with
    | some i => some (spec.take (i + 1))
    | none => none
  | _ =>
    match spec.findIdx? (· = '@') with
    | some i => if 0 < i then some (spec.take i) else none
    | none => none

/-- `YarnParser._parse_entry_line`: rstrip; skip blanks, comments and
lines not ending in `:`; drop the colon, split on commas, strip
whitespace then `"` then `'` from each specifier, extract names and
deduplicate (the Python `set` is determinised to first-occurrence
order). -/
def parseEntryLine (line : String) : List String :=
  let l := rstripL line.data
  if l = [] then []
  else if l.head? = some '#' then []
  else if l.getLast? ≠ some ':' then []
  else
    let body := l.dropLast
    let specifiers := (splitCharAux ',' body []).map
      (fun s => stripCharL '\'' (stripCharL '"' (stripL s)))
    dedupFirst ((specifiers.filterMap extractYarnNameL).map String.mk)

/-- `VERSION_PATTERN = ^\s+version\s+"([^"]+)"` via `re.match`. -/
def matchVersionLine (line : String) : Option String :=
  let cs := line.data
  if cs.takeWhile isSpace = [] then none
  else
    let r1 := cs.dropWhile isSpace
    if ("version".data).isPrefixOf r1 then
      let r2 := r1.drop 7
      if r2.takeWhile isSpace = [] then none
      else
        match r2.dropWhile isSpace with
        | '"' :: t =>
          let v := t.takeWhile (· ≠ '"')
          if v = [] then none
          else
            match t.dropWhile (· ≠ '"') with
            | '"' :: _ => some (String.mk v)
            | _ => none
        | _ => none
    else none

/-- The early-stop condition of `YarnParser._find_version`:
`line and not line[0].isspace() and line.rstrip().endswith(":")`. -/
def yarnStop (line : String) : Bool :=
  match line.data with
  | [] => false
  | c :: _ => !isSpace c && (rstripL line.data).getLast? = some ':'

/-- The scan loop of `YarnParser._find_version` over the look-ahead
window. -/
def findVersionScan : List String → Option String
  | [] => none
  | l :: ls =>
    if yarnStop l then none
    else
      match matchVersionLine l with
      | some v => some v
      | none => findVersionScan ls

/-- `YarnParser._find_version(lines, start_index)`: the loop runs over
`range(start_index, min(start_index + 10, len(lines)))`. -/
def findVersion (lines : List String) (start : Nat) : Option String :=
  findVersionScan ((lines.drop start).take 10)

/-- The inner `for name in package_names` loop of `YarnParser.parse`:
the `(name, version)` key is added to `seen` before the construction
attempt, whose `ValueError` is caught and skipped. -/
def yarnEmit (fp v : String) (seen : List (String × String)) :
    List String → List InstalledPackage × List (String × String)
  | [] => ([], seen)
  | n :: ns =>
    if (n, v) ∈ seen then yarnEmit fp v seen ns
    else
      let out := yarnEmit fp v ((n, v) :: seen) ns
      (((match mkInstalledPackage n v fp LockFileType.yarn with
         | .error _ => []
         | .ok p => [p]) ++ out.1), out.2)

/-- The main line loop of `YarnParser.parse`: for each entry-header
line, look ahead (the next 10 lines) for a version and emit one record
per fresh `(name, version)` pair. -/
def yarnGo (fp : String) : List String → List (String × String) → List InstalledPackage
  | [], _ => []
  | line :: rest, seen =>
    match parseEntryLine line with
    | [] => yarnGo fp rest seen
    | n :: ns =>
      match findVersionScan (rest.take 10) with
      | none => yarnGo fp rest seen
      | some v =>
        let out := yarnEmit fp v seen (n :: ns)
        out.1 ++ yarnGo fp rest out.2

/-- `YarnParser.parse` over the file's lines. -/
def yarnParse (lines : List String) (fp : String) : List InstalledPackage :=
  yarnGo fp lines []

/-! ### Helper lemmas -/

theorem dropWhile_head_false {p : Char → Bool} :
    ∀ (cs : List Char) (c : Char) (t : List Char),
      List.dropWhile p cs = c :: t → p c = false := by
  intro cs
  induction cs with
  | nil => intro c t h; simp at h
  | cons x xs ih =>
    intro c t h
    rw [List.dropWhile_cons] at h
    by_cases hx : p x
    · rw [if_pos hx] at h
      exact ih c t h
    · rw [if_neg hx] at h
      cases h
      simpa using hx

theorem rstripL_append_eq (y : List Char) :
    rstripL y ++ (y.reverse.takeWhile isSpace).reverse = y := by
  rw [rstripL, ← List.reverse_append, List.takeWhile_append_dropWhile, List.reverse_reverse]

theorem stripL_head_not_space (cs : List Char) (c : Char) (t : List Char)
    (h : stripL cs = c :: t) : isSpace c = false := by
  have hy := rstripL_append_eq (lstripL cs)
  rw [stripL] at h
  rw [h, List.cons_append] at hy
  rw [lstripL] at hy
  exact dropWhile_head_false cs c _ hy.symm

theorem isBlank_of_strip {cs : List Char} (h : stripL cs ≠ []) :
    isBlank (String.mk (stripL cs)) = false := by
  cases hs : stripL cs with
  | nil => exact absurd hs h
  | cons c t =>
    have hc := stripL_head_not_space cs c t hs
    simp [isBlank, hs, hc]

theorem normAltCore_strip (part0 : List Char) : ∃ z, normAltCore part0 = stripL z := by
  rw [normAltCore]
  by_cases he : (stripL part0).head? = some '='
  · exact ⟨(stripL part0).drop 1, if_pos he⟩
  · exact ⟨part0, if_neg he⟩

theorem normAlt_not_blank (part0 : List Char) (v : String) (h : normAlt part0 = some v) :
    isBlank v = false := by
  rw [normAlt] at h
  by_cases hn : normAltCore part0 = []
  · rw [if_pos hn] at h
    exact absurd h (by simp)
  · rw [if_neg hn, Option.some.injEq] at h
    obtain ⟨z, hz⟩ := normAltCore_strip part0
    rw [hz] at h hn
    exact h ▸ isBlank_of_strip hn

theorem mem_parseVersionSpec_not_blank (s : String) (v : String)
    (hv : v ∈ parseVersionSpec s) : isBlank v = false := by
  rw [parseVersionSpec] at hv
  obtain ⟨part0, -, hf⟩ := List.mem_filterMap.mp hv
  exact normAlt_not_blank part0 v hf

theorem mdPatternGroup_shape (cs g : List Char) (h : mdPatternGroup cs = some g) :
    cs.head? = some '-' ∧ cs ≠ [] := by
  cases cs with
  | nil => exact absurd h (by simp [mdPatternGroup])
  | cons c t =>
    refine ⟨?_, by simp⟩
    unfold mdPatternGroup at h
    split at h
    · next rest heq =>
      rw [heq]
      rfl
    · exact absurd h (by simp)

theorem filterMap_eq_map_of {α β : Type} (f : α → Option β) (g : α → β) :
    ∀ l : List α, (∀ a ∈ l, f a = some (g a)) → l.filterMap f = l.map g := by
  intro l
  induction l with
  | nil => intro _; rfl
  | cons x xs ih =>
    intro h
    rw [List.filterMap_cons, h x (List.mem_cons_self x xs), List.map_cons,
      ih (fun a ha => h a (List.mem_cons_of_mem _ ha))]

/-! ### Index lemmas -/

theorem dictGet_addVersion_self (d : List (String × List String)) (n v : String) :
    ∃ vs, dictGet (addVersion d n v) n = some vs ∧ v ∈ vs ∧
      ∀ u vs0, dictGet d n = some vs0 → u ∈ vs0 → u ∈ vs := by
  induction d with
  | nil => exact ⟨[v], by simp [addVersion, dictGet], by simp, by intro u vs0 h; simp [dictGet] at h⟩
  | cons pr rest ih =>
    obtain ⟨m, vs0⟩ := pr
    by_cases hm : m = n
    · subst hm
      by_cases hv : v ∈ vs0
      · refine ⟨vs0, by simp [addVersion, dictGet, hv], hv, ?_⟩
        intro u vs1 h1 h2
        rw [dictGet, if_pos rfl, Option.some.injEq] at h1
        exact h1 ▸ h2
      · refine ⟨vs0 ++ [v], by simp [addVersion, dictGet, hv], by simp, ?_⟩
        intro u vs1 h1 h2
        rw [dictGet, if_pos rfl, Option.some.injEq] at h1
        exact List.mem_append.mpr (Or.inl (h1 ▸ h2))
    · obtain ⟨vs, hget, hv, hsub⟩ := ih
      refine ⟨vs, ?_, hv, ?_⟩
      · rw [addVersion, if_neg hm, dictGet, if_neg hm]
        exact hget
      · intro u vs1 h1 h2
        rw [dictGet, if_neg hm] at h1
        exact hsub u vs1 h1 h2

theorem dictGet_addVersion_other (d : List (String × List String)) (n v n' : String)
    (h : n' ≠ n) : dictGet (addVersion d n v) n' = dictGet d n' := by
  induction d with
  | nil =>
    simp only [addVersion, dictGet]
    rw [if_neg (fun he : n = n' => h he.symm)]
  | cons pr rest ih =>
    obtain ⟨m, vs0⟩ := pr
    by_cases hm : m = n
    · subst hm
      rw [addVersion, if_pos rfl, dictGet, dictGet]
      have : ¬ (m = n') := fun he => h he.symm
      rw [if_neg this, if_neg this]
    · rw [addVersion, if_neg hm, dictGet, dictGet]
      by_cases hm' : m = n'
      · rw [if_pos hm', if_pos hm']
      · rw [if_neg hm', if_neg hm']
        exact ih

theorem stepIdx_consistent (idx : VulnIndex) (p : VulnerablePackage)
    (h : idxConsistent idx) : idxConsistent (stepIdx idx p) := by
  intro n v hmem
  have hmem' : (n, v) ∈ idx.set ∨ (n, v) = (p.name, p.version) := by
    by_cases hin : (p.name, p.version) ∈ idx.set
    · left
      simpa [stepIdx, addToSet, hin] using hmem
    · have hmem2 : (n, v) ∈ idx.set ++ [(p.name, p.version)] := by
        simpa [stepIdx, addToSet, hin] using hmem
      rcases List.mem_append.mp hmem2 with h1 | h1
      · exact Or.inl h1
      · right
        simpa using h1
  by_cases hn : n = p.name
  · subst hn
    obtain ⟨vs, hget, hvmem, hsub⟩ := dictGet_addVersion_self idx.byName p.name p.version
    rcases hmem' with hold | heq
    · obtain ⟨vs0, hg0, hv0⟩ := h p.name v hold
      exact ⟨vs, hget, hsub v vs0 hg0 hv0⟩
    · have hveq : v = p.version := by
        simpa using congrArg Prod.snd heq
      exact ⟨vs, hget, hveq ▸ hvmem⟩
  · rcases hmem' with hold | heq
    · obtain ⟨vs0, hg0, hv0⟩ := h n v hold
      refine ⟨vs0, ?_, hv0⟩
      have hoth := dictGet_addVersion_other idx.byName p.name p.version n hn
      exact hoth.trans hg0
    · exact absurd (by simpa using congrArg Prod.fst heq) hn

theorem foldl_consistent : ∀ (es : List VulnerablePackage) (idx : VulnIndex),
    idxConsistent idx → idxConsistent (es.foldl stepIdx idx) := by
  intro es
  induction es with
  | nil => intro idx h; exact h
  | cons p rest ih => intro idx h; exact ih _ (stepIdx_consistent idx p h)

theorem loadIndex_consistent (es : List VulnerablePackage) : idxConsistent (loadIndex es) :=
  foldl_consistent es ⟨[], []⟩ (by intro n v h; simp at h)

theorem mem_addToSet_left (s : List (String × String)) (k a : String × String)
    (h : a ∈ s) : a ∈ addToSet s k := by
  by_cases hk : k ∈ s <;> simp [addToSet, hk, h]

theorem mem_addToSet_self (s : List (String × String)) (k : String × String) :
    k ∈ addToSet s k := by
  by_cases hk : k ∈ s <;> simp [addToSet, hk]

theorem set_mono_foldl : ∀ (es : List VulnerablePackage) (idx : VulnIndex)
    (a : String × String), a ∈ idx.set → a ∈ (es.foldl stepIdx idx).set := by
  intro es
  induction es with
  | nil => intro idx a h; exact h
  | cons p rest ih =>
    intro idx a h
    exact ih _ a (mem_addToSet_left idx.set (p.name, p.version) a h)

theorem mem_foldl_set : ∀ (es : List VulnerablePackage) (idx : VulnIndex)
    (p : VulnerablePackage), p ∈ es → (p.name, p.version) ∈ (es.foldl stepIdx idx).set := by
  intro es
  induction es with
  | nil => intro idx p h; simp at h
  | cons q rest ih =>
    intro idx p h
    rcases List.mem_cons.mp h with h1 | h1
    · subst h1
      exact set_mono_foldl rest _ _ (mem_addToSet_self idx.set (p.name, p.version))
    · exact ih _ p h1

theorem mem_loadIndex (es : List VulnerablePackage) (p : VulnerablePackage)
    (h : p ∈ es) : (p.name, p.version) ∈ (loadIndex es).set :=
  mem_foldl_set es ⟨[], []⟩ p h

/-! ### Matcher lemmas -/

theorem matchPackages_eq_filter_map (idx : VulnIndex) : ∀ pkgs : List InstalledPackage,
    matchPackages idx pkgs =
      (pkgs.filter (fun p => decide ((p.name, p.version) ∈ idx.set))).map (resultFor idx) := by
  intro pkgs
  induction pkgs with
  | nil => rfl
  | cons p rest ih =>
    by_cases h : (p.name, p.version) ∈ idx.set
    · simp [matchPackages, h, List.filter_cons, ih]
    · simp [matchPackages, h, List.filter_cons, ih]

theorem mem_matchPackages (idx : VulnIndex) : ∀ (pkgs : List InstalledPackage)
    (r : ScanResult), r ∈ matchPackages idx pkgs →
      ∃ p, p ∈ pkgs ∧ (p.name, p.version) ∈ idx.set ∧ r = resultFor idx p := by
  intro pkgs
  induction pkgs with
  | nil => intro r h; simp [matchPackages] at h
  | cons p rest ih =>
    intro r h
    by_cases hp : (p.name, p.version) ∈ idx.set
    · rw [matchPackages, if_pos hp] at h
      rcases List.mem_cons.mp h with h1 | h1
      · exact ⟨p, List.mem_cons_self p rest, hp, h1⟩
      · obtain ⟨q, hq1, hq2, hq3⟩ := ih r h1
        exact ⟨q, List.mem_cons_of_mem _ hq1, hq2, hq3⟩
    · rw [matchPackages, if_neg hp] at h
      obtain ⟨q, hq1, hq2, hq3⟩ := ih r h
      exact ⟨q, List.mem_cons_of_mem _ hq1, hq2, hq3⟩

/-! ### Lemmas about `lastIdxOf` and the NPM name extraction -/

theorem lastIdxOf_eq_none {α : Type} [DecidableEq α] :
    ∀ (l : List α) (t : α), t ∉ l → lastIdxOf l t = none := by
  intro l t
  induction l with
  | nil => intro _; rfl
  | cons x xs ih =>
    intro h
    have hx : ¬ x = t := fun he => h (he ▸ List.mem_cons_self x xs)
    have hxs : t ∉ xs := fun hm => h (List.mem_cons_of_mem _ hm)
    simp only [lastIdxOf, ih hxs, if_neg hx]

theorem lastIdxOf_append {α : Type} [DecidableEq α] (pre suffix : List α) (t : α)
    (h : t ∉ suffix) : lastIdxOf (pre ++ t :: suffix) t = some pre.length := by
  induction pre with
  | nil =>
    have h0 : lastIdxOf (([] : List α) ++ t :: suffix) t =
        match lastIdxOf suffix t with
        | some i => some (i + 1)
        | none => if t = t then some 0 else none := rfl
    rw [h0, lastIdxOf_eq_none suffix t h]
    simp
  | cons x pre ih =>
    have h0 : lastIdxOf ((x :: pre) ++ t :: suffix) t =
        match lastIdxOf (pre ++ t :: suffix) t with
        | some i => some (i + 1)
        | none => if x = t then some 0 else none := rfl
    rw [h0, ih]
    simp

/-! ### Lemmas about constructor validation and the Yarn parser -/

theorem mkInstalledPackage_ok (n v fp : String) (ft : LockFileType) (p : InstalledPackage)
    (h : mkInstalledPackage n v fp ft = .ok p) : p = ⟨n, v, fp, ft⟩ := by
  rw [mkInstalledPackage] at h
  by_cases h1 : isBlank n = true
  · rw [if_pos h1] at h
    exact Except.noConfusion h
  · rw [if_neg h1] at h
    by_cases h2 : isBlank v = true
    · rw [if_pos h2] at h
      exact Except.noConfusion h
    · rw [if_neg h2] at h
      injection h with h3
      exact h3.symm

theorem mkInstalledPackage_ok_of (n v fp : String) (ft : LockFileType)
    (hn : isBlank n = false) (hv : isBlank v = false) :
    mkInstalledPackage n v fp ft = .ok ⟨n, v, fp, ft⟩ := by
  rw [mkInstalledPackage, if_neg (by rw [hn]; exact Bool.false_ne_true),
    if_neg (by rw [hv]; exact Bool.false_ne_true)]

theorem yarnEmit_spec : ∀ (ns : List String) (fp v : String) (seen : List (String × String)),
    (∀ k, k ∈ seen → k ∈ (yarnEmit fp v seen ns).2) ∧
    (∀ r, r ∈ (yarnEmit fp v seen ns).1 →
        r.key ∉ seen ∧ r.key ∈ (yarnEmit fp v seen ns).2) ∧
    ((yarnEmit fp v seen ns).1.map InstalledPackage.key).Nodup := by
  intro ns
  induction ns with
  | nil =>
    intro fp v seen
    exact ⟨fun k h => h, fun r h => absurd h (by simp [yarnEmit]), by simp [yarnEmit]⟩
  | cons n ns ih =>
    intro fp v seen
    by_cases hs : (n, v) ∈ seen
    · simp only [yarnEmit, if_pos hs]
      exact ih fp v seen
    · obtain ⟨ih1, ih2, ih3⟩ := ih fp v ((n, v) :: seen)
      simp only [yarnEmit, if_neg hs]
      refine ⟨?_, ?_, ?_⟩
      · intro k hk
        exact ih1 k (List.mem_cons_of_mem _ hk)
      · intro r hr
        rcases List.mem_append.mp hr with h1 | h1
        · have hkey : r.key = (n, v) := by
            cases hmk : mkInstalledPackage n v fp LockFileType.yarn with
            | error e => rw [hmk] at h1; simp at h1
            | ok p =>
              rw [hmk] at h1
              simp only [List.mem_singleton] at h1
              rw [h1, mkInstalledPackage_ok n v fp LockFileType.yarn p hmk]
              rfl
          exact ⟨hkey ▸ hs, hkey ▸ ih1 (n, v) (List.mem_cons_self _ _)⟩
        · obtain ⟨hn1, hn2⟩ := ih2 r h1
          exact ⟨fun hc => hn1 (List.mem_cons_of_mem _ hc), hn2⟩
      · rw [List.map_append]
        cases hmk : mkInstalledPackage n v fp LockFileType.yarn with
        | error e => simpa using ih3
        | ok p =>
          have hp := mkInstalledPackage_ok n v fp LockFileType.yarn p hmk
          simp only [List.singleton_append, List.map_cons, List.map_nil, List.nil_append]
          refine List.Nodup.cons ?_ ih3
          intro hc
          obtain ⟨r, hr, hrk⟩ := List.mem_map.mp hc
          obtain ⟨hn1, -⟩ := ih2 r hr
          apply hn1
          rw [hrk, hp]
          exact List.mem_cons_self _ _

theorem yarnEmit_mem : ∀ (ns : List String) (fp v n : String) (seen : List (String × String)),
    n ∈ ns → (n, v) ∉ seen → isBlank n = false → isBlank v = false →
    (⟨n, v, fp, LockFileType.yarn⟩ : InstalledPackage) ∈ (yarnEmit fp v seen ns).1 := by
  intro ns
  induction ns with
  | nil => intro fp v n seen h; simp at h
  | cons m ms ih =>
    intro fp v n seen hm hns hbn hbv
    by_cases hnm : n = m
    · subst hnm
      simp only [yarnEmit, if_neg hns]
      apply List.mem_append.mpr
      left
      rw [mkInstalledPackage_ok_of n v fp LockFileType.yarn hbn hbv]
      exact List.mem_singleton.mpr rfl
    · have he : n ∈ ms := by
        rcases List.mem_cons.mp hm with h1 | h1
        · exact absurd h1 hnm
        · exact h1
      by_cases hms : (m, v) ∈ seen
      · simp only [yarnEmit, if_pos hms]
        exact ih fp v n seen he hns hbn hbv
      · simp only [yarnEmit, if_neg hms]
        apply List.mem_append.mpr
        right
        refine ih fp v n ((m, v) :: seen) he ?_ hbn hbv
        intro hc
        rcases List.mem_cons.mp hc with h1 | h1
        · exact hnm (by simpa using congrArg Prod.fst h1)
        · exact hns h1

theorem yarnGo_spec : ∀ (lines : List String) (fp : String) (seen : List (String × String)),
    ((yarnGo fp lines seen).map InstalledPackage.key).Nodup ∧
    (∀ r, r ∈ yarnGo fp lines seen → r.key ∉ seen) := by
  intro lines
  induction lines with
  | nil => intro fp seen; simp [yarnGo]
  | cons line rest ih =>
    intro fp seen
    cases hp : parseEntryLine line with
    | nil => simpa [yarnGo, hp] using ih fp seen
    | cons n ns =>
      cases hv : findVersionScan (rest.take 10) with
      | none => simpa [yarnGo, hp, hv] using ih fp seen
      | some v =>
        obtain ⟨e1, e2, e3⟩ := yarnEmit_spec (n :: ns) fp v seen
        obtain ⟨g1, g2⟩ := ih fp (yarnEmit fp v seen (n :: ns)).2
        have hgo : yarnGo fp (line :: rest) seen =
            (yarnEmit fp v seen (n :: ns)).1 ++
              yarnGo fp rest (yarnEmit fp v seen (n :: ns)).2 := by
          simp [yarnGo, hp, hv]
        rw [hgo]
        constructor
        · rw [List.map_append]
          refine List.Nodup.append e3 g1 ?_
          intro k hk1 hk2
          obtain ⟨r, hr, hrk⟩ := List.mem_map.mp hk1
          obtain ⟨r', hr', hrk'⟩ := List.mem_map.mp hk2
          obtain ⟨-, hseen⟩ := e2 r hr
          have hk : k ∈ (yarnEmit fp v seen (n :: ns)).2 := hrk ▸ hseen
          exact g2 r' hr' (hrk'.symm ▸ hk)
        · intro r hr
          rcases List.mem_append.mp hr with h1 | h1
          · exact (e2 r h1).1
          · exact fun hc => g2 r h1 (e1 r.key hc)

/-! ### Claim theorems -/

/-- Claim C1: the spec asserts that a name-only match (index knows
`vuln-pkg` only at version `1.0.0`, installed is `vuln-pkg@2.0.0`)
yields zero `ScanResult`s and records one `VersionMismatchWarning`.
The code's `match_packages` produces zero results for that input — and
nothing else: no version-mismatch warning is produced anywhere, the
`ScanSummary` dataclass in the source has no version-mismatch field,
and the scan-file summary for that input carries no warning at all.
This theorem evaluates the embedded code at the claim's own scenario. -/
theorem c1_name_only_match_produces_nothing :
    matchPackages (loadIndex [⟨"vuln-pkg", "1.0.0", "packages.md"⟩])
        [⟨"vuln-pkg", "2.0.0", "/t/package-lock.json", LockFileType.npm⟩] = [] ∧
    (scanFile (loadIndex [⟨"vuln-pkg", "1.0.0", "packages.md"⟩]) "/t/package-lock.json"
        ⟨true, true, true,
          .ok [⟨"vuln-pkg", "2.0.0", "/t/package-lock.json", LockFileType.npm⟩]⟩).warnings
      = [] ∧
    (scanFile (loadIndex [⟨"vuln-pkg", "1.0.0", "packages.md"⟩]) "/t/package-lock.json"
        ⟨true, true, true,
          .ok [⟨"vuln-pkg", "2.0.0", "/t/package-lock.json", LockFileType.npm⟩]⟩).vulnerabilities
      = [] := by
  decide

/-- Claim C2 counterexample: a `package-lock.json` whose content is
invalid JSON.  `NpmParser.parse` catches the decode error internally
(logging to the module logger) and returns zero records, so the
`ScanSummary` returned by `scan_file` carries no warning string —
contradicting the claim that every structural parse failure records a
warning string on the returned `ScanSummary`. -/
theorem c2_malformed_npm_counterexample :
    (scanFileNpm (loadIndex []) "/t/package-lock.json" (.malformed "Expecting value")).warnings
      = [] ∧
    (scanFileNpm (loadIndex [])
        "/t/package-lock.json" (.malformed "Expecting value")).vulnerabilities = [] ∧
    npmParse (.malformed "Expecting value") "/t/package-lock.json" = [] := by
  exact ⟨rfl, rfl, rfl⟩

/-- Claim C2 (amended): a lock file whose content fails structural
parsing contributes zero installed-package records and does not abort
the operation.  When the selected parser raises, `scan_file` catches
the exception and records a warning string on the `ScanSummary`; the
built-in NPM parser, however, catches invalid JSON itself, logs a
warning to the logger, and returns zero records, so in that case the
returned `ScanSummary` carries no warning string. -/
theorem c2_parse_failure_behaviour (idx : VulnIndex) (path : String) (t : FileTarget)
    (err : String) (hex : t.fileExists = true) (hf : t.isFile = true)
    (hp : t.parserFound = true) (ho : t.parseOutcome = .error err) :
    scanFile idx path t = ⟨path, 0, [], ["Failed to parse " ++ path ++ ": " ++ err]⟩ ∧
    ∀ e fp, npmParse (.malformed e) fp = [] ∧ npmLogsParseWarning (.malformed e) = true ∧
      (scanFileNpm idx fp (.malformed e)).vulnerabilities = [] ∧
      (scanFileNpm idx fp (.malformed e)).warnings = [] := by
  constructor
  · rw [scanFile, hex, hf, hp, ho]
    rfl
  · intro e fp
    exact ⟨rfl, rfl, by simp [scanFileNpm, scanFile, npmParse, matchPackages], rfl⟩

theorem c2_parse_failure_behaviour_witness :
    scanFile (loadIndex []) "/q/pnpm-lock.yaml" ⟨true, true, true, Except.error "boom"⟩ =
      ⟨"/q/pnpm-lock.yaml", 0, [],
        ["Failed to parse " ++ "/q/pnpm-lock.yaml" ++ ": " ++ "boom"]⟩ ∧
    ∀ e fp, npmParse (.malformed e) fp = [] ∧ npmLogsParseWarning (.malformed e) = true ∧
      (scanFileNpm (loadIndex []) fp (.malformed e)).vulnerabilities = [] ∧
      (scanFileNpm (loadIndex []) fp (.malformed e)).warnings = [] :=
  c2_parse_failure_behaviour (loadIndex []) "/q/pnpm-lock.yaml"
    ⟨true, true, true, Except.error "boom"⟩ "boom" rfl rfl rfl rfl

/-- Claim C3: `match_packages` produces one `ScanResult` per record
whose `(name, version)` pair is in the exact-match set and nothing for
any other record, preserving input order; each result carries the full
by-name version list (`[pkg.version]` only as the lookup default); and
on the spec's example it yields exactly the one result for
`vuln-pkg@1.0.0`. -/
theorem c3_exact_match_results (idx : VulnIndex) (pkgs : List InstalledPackage) :
    matchPackages idx pkgs =
      (pkgs.filter (fun p => decide ((p.name, p.version) ∈ idx.set))).map (resultFor idx) ∧
    (∀ p : InstalledPackage, (resultFor idx p).vulnerableVersions =
      (dictGet idx.byName p.name).getD [p.version]) ∧
    matchPackages (loadIndex [⟨"vuln-pkg", "1.0.0", "packages.md"⟩])
        [⟨"vuln-pkg", "1.0.0", "/l", LockFileType.npm⟩,
         ⟨"safe-pkg", "2.0.0", "/l", LockFileType.npm⟩] =
      [⟨"vuln-pkg", "1.0.0", ["1.0.0"], "/l", LockFileType.npm⟩] :=
  ⟨matchPackages_eq_filter_map idx pkgs, fun _ => rfl, by decide⟩

/-- Claim C4: every line of `packages.md` that parses to an entry
contributes its `(name, version)` pair to the exact-match set of the
index built by `load_all`; a line whose outcome is not an entry
contributes nothing (parsing continues); a non-blank line without a
leading dash is ignored outright; and a line that reaches the
entry-splitting stage (the `MD_PATTERN` match produced a group) whose
entry has no `@` at a position greater than 0 — `rfind` returned no
index or index 0 — or an empty half around the last `@`, yields the
warned outcome (a warning is logged) and contributes no entry while
parsing continues with the remaining lines. -/
theorem c4_md_lines (lines : List String) (csv : List VulnerablePackage) :
    (∀ l n v, l ∈ lines → mdLineOutcome l = .entry n v →
        (n, v) ∈ (loadIndex (parsePackagesMd lines ++ csv)).set) ∧
    (∀ l rest, (∀ n v, mdLineOutcome l ≠ .entry n v) →
        parsePackagesMd (l :: rest) = parsePackagesMd rest) ∧
    (∀ l, stripL l.data ≠ [] → ¬ (stripL l.data).head? = some '-' →
        mdLineOutcome l = .ignored) ∧
    (∀ l g, mdPatternGroup (stripL l.data) = some g →
        (lastIdxOf (stripL g) '@' = none ∨ lastIdxOf (stripL g) '@' = some 0 ∨
          (∃ i, lastIdxOf (stripL g) '@' = some i ∧
            ((stripL g).take i = [] ∨ (stripL g).drop (i + 1) = []))) →
        mdLineOutcome l = .warned ∧
        ∀ rest, parsePackagesMd (l :: rest) = parsePackagesMd rest) := by
  refine ⟨?_, ?_, ?_, ?_⟩
  · intro l n v hl hout
    have hmem : (⟨n, v, "packages.md"⟩ : VulnerablePackage) ∈ parsePackagesMd lines ++ csv := by
      apply List.mem_append.mpr
      left
      rw [parsePackagesMd]
      apply List.mem_filterMap.mpr
      exact ⟨l, hl, by rw [hout]⟩
    exact mem_loadIndex _ ⟨n, v, "packages.md"⟩ hmem
  · intro l rest hne
    rw [parsePackagesMd, parsePackagesMd, List.filterMap_cons]
    cases hout : mdLineOutcome l with
    | ignored => simp
    | warned => simp
    | entry n v => exact absurd hout (hne n v)
  · intro l h1 h2
    simp only [mdLineOutcome]
    rw [if_neg h1, if_pos h2]
  · intro l g hg hbad
    obtain ⟨hhead, hne⟩ := mdPatternGroup_shape (stripL l.data) g hg
    have hout : mdLineOutcome l = .warned := by
      simp only [mdLineOutcome]
      rw [if_neg hne, if_neg (fun hcon => hcon hhead)]
      simp only [hg]
      rcases hbad with h0 | h0 | ⟨i, hi, hhalf⟩
      · simp [h0]
      · simp [h0]
      · simp only [hi]
        by_cases hi0 : i = 0
        · simp [hi0]
        · rw [if_neg hi0]
          rcases hhalf with hh | hh
          · rw [hh]
            simp
          · rw [hh]
            simp
    refine ⟨hout, ?_⟩
    intro rest
    rw [parsePackagesMd, parsePackagesMd, List.filterMap_cons]
    simp [hout]

theorem c4_md_lines_witness :
    ("vuln-pkg", "1.0.0") ∈
      (loadIndex (parsePackagesMd ["- vuln-pkg@1.0.0"] ++ [])).set ∧
    parsePackagesMd ["not a bullet", "- a@1"] = parsePackagesMd ["- a@1"] ∧
    mdLineOutcome "not a bullet" = .ignored ∧
    mdLineOutcome "- noversion" = .warned ∧
    mdLineOutcome "- @1.0.0" = .warned ∧
    mdLineOutcome "- name@" = .warned ∧
    parsePackagesMd ["- name@", "- a@1"] = parsePackagesMd ["- a@1"] := by
  have hc : mdLineOutcome "not a bullet" = MdOutcome.ignored := by decide
  have hnoat := (c4_md_lines [] []).2.2.2 "- noversion" ("noversion".data)
    (by decide) (Or.inl (by decide))
  have hleadat := (c4_md_lines [] []).2.2.2 "- @1.0.0" ("@1.0.0".data)
    (by decide) (Or.inr (Or.inl (by decide)))
  have hemptyv := (c4_md_lines [] []).2.2.2 "- name@" ("name@".data)
    (by decide) (Or.inr (Or.inr ⟨4, by decide, Or.inr (by decide)⟩))
  refine ⟨?_, ?_, hc, hnoat.1, hleadat.1, hemptyv.1, hemptyv.2 ["- a@1"]⟩
  · exact (c4_md_lines ["- vuln-pkg@1.0.0"] []).1 "- vuln-pkg@1.0.0" "vuln-pkg" "1.0.0"
      (by decide) (by decide)
  · exact (c4_md_lines ["not a bullet", "- a@1"] []).2.1 "not a bullet" ["- a@1"]
      (fun n v h => MdOutcome.noConfusion (hc.symm.trans h))

/-- Claim C5: for a tabular row with non-empty stripped package and
version fields, the version specification splits on `||` into
alternatives, each trimmed and stripped of a leading `=`, and each
non-empty alternative yields one entry carrying the row's package
name; the spec `= 1.0.0 || = 2.0.0` yields exactly the two entries
`1.0.0` and `2.0.0` under the same name. -/
theorem c5_wiz_version_alternatives (nameField versionField : String)
    (h1 : pyStrip nameField ≠ "") (h2 : pyStrip versionField ≠ "") :
    (parseWizRow nameField versionField).map (fun p => p.version) =
      parseVersionSpec (pyStrip versionField) ∧
    (∀ p, p ∈ parseWizRow nameField versionField → p.name = pyStrip nameField) ∧
    parseWizRow "pkg" "= 1.0.0 || = 2.0.0" =
      [⟨"pkg", "1.0.0", "wiz-packages.csv"⟩, ⟨"pkg", "2.0.0", "wiz-packages.csv"⟩] := by
  have hstrip : stripL nameField.data ≠ [] := by
    intro hl
    apply h1
    rw [pyStrip, hl]
  have hb1 : isBlank (pyStrip nameField) = false := isBlank_of_strip hstrip
  have hrow : parseWizRow nameField versionField =
      (parseVersionSpec (pyStrip versionField)).filterMap (fun v =>
        match mkVulnerablePackage (pyStrip nameField) v "wiz-packages.csv" with
        | .error _ => none
        | .ok p => some p) := by
    rw [parseWizRow]
    rw [if_neg]
    simp [h1, h2]
  have hkeep : ∀ v ∈ parseVersionSpec (pyStrip versionField),
      (fun v =>
        match mkVulnerablePackage (pyStrip nameField) v "wiz-packages.csv" with
        | .error _ => none
        | .ok p => some p) v =
        some (⟨pyStrip nameField, v, "wiz-packages.csv"⟩ : VulnerablePackage) := by
    intro v hv
    have hbv := mem_parseVersionSpec_not_blank _ v hv
    have hmk : mkVulnerablePackage (pyStrip nameField) v "wiz-packages.csv" =
        .ok ⟨pyStrip nameField, v, "wiz-packages.csv"⟩ := by
      rw [mkVulnerablePackage, if_neg (by rw [hb1]; exact Bool.false_ne_true),
        if_neg (by rw [hbv]; exact Bool.false_ne_true)]
      rfl
    simp [hmk]
  have hmap : parseWizRow nameField versionField =
      (parseVersionSpec (pyStrip versionField)).map (fun v =>
        (⟨pyStrip nameField, v, "wiz-packages.csv"⟩ : VulnerablePackage)) := by
    rw [hrow]
    exact filterMap_eq_map_of _ _ _ hkeep
  refine ⟨?_, ?_, by decide⟩
  · rw [hmap, List.map_map]
    exact List.map_id _
  · intro p hp
    rw [hmap] at hp
    obtain ⟨v, -, hv⟩ := List.mem_map.mp hp
    rw [← hv]

theorem c5_wiz_version_alternatives_witness :
    pyStrip "pkg" ≠ "" ∧ pyStrip " = 3.0.0 " ≠ "" ∧
    ((parseWizRow "pkg" " = 3.0.0 ").map (fun p => p.version) =
        parseVersionSpec (pyStrip " = 3.0.0 ") ∧
      (∀ p, p ∈ parseWizRow "pkg" " = 3.0.0 " → p.name = pyStrip "pkg") ∧
      parseWizRow "pkg" "= 1.0.0 || = 2.0.0" =
        [⟨"pkg", "1.0.0", "wiz-packages.csv"⟩, ⟨"pkg", "2.0.0", "wiz-packages.csv"⟩]) :=
  ⟨by decide, by decide,
    c5_wiz_version_alternatives "pkg" " = 3.0.0 " (by decide) (by decide)⟩

/-- The name that `_extract_package_name` computes from the segments
after the last `node_modules` component: the next segment, or the next
two joined by `/` when the next one starts with `@` and a second one
exists. -/
def nameAfterNm (suffix : List String) : String :=
  match suffix with
  | [] => ""
  | r0 :: rest =>
    if r0.data.head? = some '@' then
      match rest with
      | r1 :: _ => r0 ++ "/" ++ r1
      | [] => r0
    else r0

theorem extractFromParts_append (pre suffix : List String)
    (h : ¬ "node_modules" ∈ suffix) :
    extractFromParts (pre ++ "node_modules" :: suffix) = nameAfterNm suffix := by
  have hidx : lastIdxOf (pre ++ "node_modules" :: suffix) "node_modules" = some pre.length :=
    lastIdxOf_append pre suffix _ h
  simp only [extractFromParts, hidx]
  cases suffix with
  | nil =>
    have hlen : (pre ++ ["node_modules"]).length ≤ pre.length + 1 := by
      simp
    rw [if_pos hlen]
    rfl
  | cons r0 rest =>
    have hlen : ¬ ((pre ++ "node_modules" :: r0 :: rest).length ≤ pre.length + 1) := by
      simp only [List.length_append, List.length_cons]
      omega
    rw [if_neg hlen]
    have hdrop : (pre ++ "node_modules" :: r0 :: rest).drop (pre.length + 1) = r0 :: rest := by
      have hd : (pre ++ "node_modules" :: r0 :: rest).drop (pre.length + 1) =
          ("node_modules" :: r0 :: rest).drop 1 := List.drop_append 1
      rw [hd]
      rfl
    rw [hdrop]
    rfl

/-- Claim C6: the v2/v3 NPM walk skips the empty root key and entries
without a version, derives names from the segments after the last
`node_modules` component (two segments for a scope), the parser takes
the v2/v3 branch whenever the declared lockfile version is at least 2,
and the spec's three-key example yields exactly `lodash@4.17.21` and
`@babel/core@7.0.0`. -/
theorem c6_npm_v23_name_derivation :
    parseV2V3 [("", NpmInfo.dict (some "1.0.0")),
        ("node_modules/lodash", NpmInfo.dict (some "4.17.21")),
        ("node_modules/@babel/core", NpmInfo.dict (some "7.0.0"))] "/p/package-lock.json" =
      [⟨"lodash", "4.17.21", "/p/package-lock.json", LockFileType.npm⟩,
       ⟨"@babel/core", "7.0.0", "/p/package-lock.json", LockFileType.npm⟩] ∧
    (∀ info rest fp, parseV2V3 (("", info) :: rest) fp = parseV2V3 rest fp) ∧
    (∀ path rest fp, parseV2V3 ((path, NpmInfo.dict none) :: rest) fp = parseV2V3 rest fp) ∧
    (∀ ver pkgs deps fp, 2 ≤ ver → npmParse (.doc ver pkgs deps) fp = parseV2V3 pkgs fp) ∧
    (∀ pre suffix, ¬ "node_modules" ∈ suffix →
        extractFromParts (pre ++ "node_modules" :: suffix) = nameAfterNm suffix) := by
  refine ⟨by decide, ?_, ?_, ?_, extractFromParts_append⟩
  · intro info rest fp
    cases info with
    | nonDict => simp [parseV2V3, List.filterMap_cons]
    | dict ver => simp [parseV2V3, List.filterMap_cons]
  · intro path rest fp
    by_cases hp : path = "" <;> simp [parseV2V3, List.filterMap_cons, hp]
  · intro ver pkgs deps fp h
    rw [npmParse, if_pos h]

theorem c6_npm_v23_name_derivation_witness :
    npmParse (.doc 3 [("node_modules/left-pad", NpmInfo.dict (some "1.3.0"))] []) "/w" =
      parseV2V3 [("node_modules/left-pad", NpmInfo.dict (some "1.3.0"))] "/w" ∧
    extractFromParts (["a"] ++ "node_modules" :: ["@scope", "pkg"]) =
      nameAfterNm ["@scope", "pkg"] :=
  ⟨(c6_npm_v23_name_derivation).2.2.2.1 3 [("node_modules/left-pad", NpmInfo.dict (some "1.3.0"))]
      [] "/w" (by decide),
   (c6_npm_v23_name_derivation).2.2.2.2 ["a"] ["@scope", "pkg"] (by decide)⟩

/-- Claim C7: the Yarn parser's look-ahead is bounded (it depends only
on the ten lines after the header) and stops early at the next
header-shaped line; the found version is assigned to every name
extracted from the header's comma-separated specifiers; `(name,
version)` pairs are deduplicated within one file; and the spec's
two-specifier example yields exactly one record `lodash@4.17.21`. -/
theorem c7_yarn_header_version :
    yarnParse ["lodash@^4.17.0, lodash@^4.17.21:", "  version \"4.17.21\""] "/y/yarn.lock" =
      [⟨"lodash", "4.17.21", "/y/yarn.lock", LockFileType.yarn⟩] ∧
    (∀ lines fp, ((yarnParse lines fp).map InstalledPackage.key).Nodup) ∧
    (∀ l ls, yarnStop l = true → findVersionScan (l :: ls) = none) ∧
    (∀ lines lines2 start, (lines.drop start).take 10 = (lines2.drop start).take 10 →
        findVersion lines start = findVersion lines2 start) ∧
    (∀ fp header rest v n, findVersionScan (rest.take 10) = some v →
        n ∈ parseEntryLine header → isBlank n = false → isBlank v = false →
        (⟨n, v, fp, LockFileType.yarn⟩ : InstalledPackage) ∈ yarnGo fp (header :: rest) []) := by
  refine ⟨by decide, ?_, ?_, ?_, ?_⟩
  · intro lines fp
    rw [yarnParse]
    exact (yarnGo_spec lines fp []).1
  · intro l ls h
    simp [findVersionScan, h]
  · intro lines lines2 start h
    rw [findVersion, findVersion, h]
  · intro fp header rest v n hfv hn hbn hbv
    cases hp : parseEntryLine header with
    | nil => rw [hp] at hn; simp at hn
    | cons m ms =>
      rw [hp] at hn
      have hgo : yarnGo fp (header :: rest) [] =
          (yarnEmit fp v [] (m :: ms)).1 ++ yarnGo fp rest (yarnEmit fp v [] (m :: ms)).2 := by
        simp [yarnGo, hp, hfv]
      rw [hgo]
      exact List.mem_append.mpr
        (Or.inl (yarnEmit_mem (m :: ms) fp v n [] hn (by simp) hbn hbv))

theorem c7_yarn_header_version_witness :
    (⟨"lodash", "4.17.21", "/y/yarn.lock", LockFileType.yarn⟩ : InstalledPackage) ∈
      yarnGo "/y/yarn.lock" ["lodash@^4.17.0, lodash@^4.17.21:", "  version \"4.17.21\""] [] ∧
    findVersionScan ["foo:", "  version \"9.9.9\""] = none :=
  ⟨(c7_yarn_header_version).2.2.2.2 "/y/yarn.lock" "lodash@^4.17.0, lodash@^4.17.21:"
      ["  version \"4.17.21\""] "4.17.21" "lodash" (by decide) (by decide) (by decide)
      (by decide),
   (c7_yarn_header_version).2.2.1 "foo:" ["  version \"9.9.9\""] (by decide)⟩

/-- Claim C8: `discover_lock_files` returns exactly the regular files
whose basename is one of the three known lock-file names and none of
whose path segments equals `node_modules`; over the spec's
three-file tree it returns exactly the first two. -/
theorem c8_discover_lock_files (entries : List FsEntry) :
    (∀ e, e ∈ discoverLockFiles entries ↔
        e ∈ entries ∧ e.isFile = true ∧
        basenameOf e ∈ ["package-lock.json", "yarn.lock", "pnpm-lock.yaml"] ∧
        ¬ "node_modules" ∈ e.parts) ∧
    discoverLockFiles
        [⟨["/", "package-lock.json"], true⟩, ⟨["/", "src", "yarn.lock"], true⟩,
         ⟨["/", "node_modules", "pnpm-lock.yaml"], true⟩] =
      [⟨["/", "package-lock.json"], true⟩, ⟨["/", "src", "yarn.lock"], true⟩] := by
  refine ⟨?_, by decide⟩
  intro e
  rw [discoverLockFiles, discoverLockFilesWith, List.mem_filter]
  simp only [Bool.and_eq_true, Bool.not_eq_true', dictHasKey, lockFileNamesDefault,
    List.any_cons, List.any_nil, Bool.or_eq_true, decide_eq_true_eq, List.mem_cons,
    List.not_mem_nil, or_false, and_assoc]
  constructor
  · rintro ⟨hm, hf, hk, hc⟩
    refine ⟨hm, hf, ?_, ?_⟩
    · rcases hk with h | h | h | h
      · exact Or.inl h.symm
      · exact Or.inr (Or.inl h.symm)
      · exact Or.inr (Or.inr h.symm)
      · exact absurd h (by simp)
    · intro hmem
      have hel : (e.parts.contains "node_modules") = true := List.elem_iff.mpr hmem
      rw [hc] at hel
      exact Bool.noConfusion hel
  · rintro ⟨hm, hf, hk, hc⟩
    refine ⟨hm, hf, ?_, ?_⟩
    · rcases hk with h | h | h
      · exact Or.inl h.symm
      · exact Or.inr (Or.inl h.symm)
      · exact Or.inr (Or.inr (Or.inl h.symm))
    · exact Bool.eq_false_iff.mpr (fun hel => hc (List.elem_iff.mp hel))

/-- Claim C9: `register_parser` on one scanner instance appends the
parser only to that instance's parser list, while the filename is
written into the class-level `LOCK_FILE_NAMES` dict shared by every
instance, so any instance's subsequent `discover_lock_files` (which
consults that shared dict) recognizes the new filename. -/
theorem c9_register_shares_class_dict (w : PyWorld) (p : ParserSpec) (entries : List FsEntry)
    (e : FsEntry) :
    (registerParserA w p).parsersA = w.parsersA ++ [p] ∧
    (registerParserA w p).parsersB = w.parsersB ∧
    dictHasKey (registerParserA w p).classLockFileNames p.filename = true ∧
    (basenameOf e = p.filename → e.isFile = true →
      e.parts.contains "node_modules" = false → e ∈ entries →
      e ∈ scannerDiscover (registerParserA w p) entries) := by
  have hkey : ∀ (d : List (String × LockFileType)) (k : String) (v : LockFileType),
      dictHasKey (dictInsert d k v) k = true := by
    intro d k v
    induction d with
    | nil => simp [dictInsert, dictHasKey]
    | cons pr rest ih =>
      obtain ⟨k', v'⟩ := pr
      by_cases h : k' = k
      · simp [dictInsert, h, dictHasKey]
      · simp only [dictInsert, if_neg h, dictHasKey, List.any_cons]
        rw [dictHasKey] at ih
        rw [ih]
        simp
  refine ⟨rfl, rfl, hkey w.classLockFileNames p.filename p.fileType, ?_⟩
  intro hb hf hnm he
  rw [scannerDiscover, discoverLockFilesWith]
  apply List.mem_filter.mpr
  refine ⟨he, ?_⟩
  rw [hf, hb, hnm]
  simp only [registerParserA]
  rw [hkey w.classLockFileNames p.filename p.fileType]
  rfl

theorem c9_register_shares_class_dict_witness :
    (registerParserA ⟨lockFileNamesDefault, [], []⟩ ⟨"bun.lockb", LockFileType.npm⟩).parsersA
      = [] ++ [⟨"bun.lockb", LockFileType.npm⟩] ∧
    (registerParserA ⟨lockFileNamesDefault, [], []⟩ ⟨"bun.lockb", LockFileType.npm⟩).parsersB
      = [] ∧
    dictHasKey (registerParserA ⟨lockFileNamesDefault, [], []⟩
        ⟨"bun.lockb", LockFileType.npm⟩).classLockFileNames "bun.lockb" = true ∧
    (⟨["/", "bun.lockb"], true⟩ : FsEntry) ∈
      scannerDiscover (registerParserA ⟨lockFileNamesDefault, [], []⟩
        ⟨"bun.lockb", LockFileType.npm⟩) [⟨["/", "bun.lockb"], true⟩] := by
  obtain ⟨ha, hbp, hk, himp⟩ := c9_register_shares_class_dict ⟨lockFileNamesDefault, [], []⟩
    ⟨"bun.lockb", LockFileType.npm⟩ [⟨["/", "bun.lockb"], true⟩] ⟨["/", "bun.lockb"], true⟩
  exact ⟨ha, hbp, hk, himp rfl rfl (by decide) (by decide)⟩

/-- Claim C10: the two structures built by `load_all` are mutually
consistent — any pair in the exact-match set has its name as a key of
the by-name map with the version in its list — and consequently every
`ScanResult` produced by `match_packages` has a non-empty
vulnerable-versions list containing the installed version, the
`[pkg.version]` lookup default is never taken, and the `ScanResult`
validation (`ValueError` branches) always passes. -/
theorem c10_index_consistency (entries : List VulnerablePackage)
    (pkgs : List InstalledPackage)
    (hpkgs : ∀ p, p ∈ pkgs → isBlank p.name = false ∧ isBlank p.version = false) :
    idxConsistent (loadIndex entries) ∧
    ∀ r, r ∈ matchPackages (loadIndex entries) pkgs →
      r.vulnerableVersions ≠ [] ∧
      r.installedVersion ∈ r.vulnerableVersions ∧
      dictGet (loadIndex entries).byName r.packageName = some r.vulnerableVersions ∧
      mkScanResult r.packageName r.installedVersion r.vulnerableVersions r.filePath r.fileType
        = .ok r := by
  have hcons := loadIndex_consistent entries
  refine ⟨hcons, ?_⟩
  intro r hr
  obtain ⟨p, hp, hset, hre⟩ := mem_matchPackages _ pkgs r hr
  obtain ⟨vs, hget, hv⟩ := hcons p.name p.version hset
  have hfields : r = ⟨p.name, p.version, vs, p.filePath, p.fileType⟩ := by
    rw [hre, resultFor, hget]
    rfl
  obtain ⟨hbn, hbv⟩ := hpkgs p hp
  subst hfields
  dsimp only
  have hvs : vs ≠ [] := List.ne_nil_of_mem hv
  have hemp : vs.isEmpty = false := by
    cases vs with
    | nil => exact absurd rfl hvs
    | cons a t => rfl
  refine ⟨hvs, hv, hget, ?_⟩
  rw [mkScanResult, if_neg (by rw [hbn]; exact Bool.false_ne_true),
    if_neg (by rw [hbv]; exact Bool.false_ne_true),
    if_neg (by rw [hemp]; exact Bool.false_ne_true)]

theorem c10_index_consistency_witness :
    (∀ p, p ∈ [(⟨"vuln-pkg", "1.0.0", "/l", LockFileType.npm⟩ : InstalledPackage)] →
        isBlank p.name = false ∧ isBlank p.version = false) ∧
    (idxConsistent (loadIndex [⟨"vuln-pkg", "1.0.0", "packages.md"⟩]) ∧
      ∀ r, r ∈ matchPackages (loadIndex [⟨"vuln-pkg", "1.0.0", "packages.md"⟩])
          [⟨"vuln-pkg", "1.0.0", "/l", LockFileType.npm⟩] →
        r.vulnerableVersions ≠ [] ∧
        r.installedVersion ∈ r.vulnerableVersions ∧
        dictGet (loadIndex [⟨"vuln-pkg", "1.0.0", "packages.md"⟩]).byName r.packageName
          = some r.vulnerableVersions ∧
        mkScanResult r.packageName r.installedVersion r.vulnerableVersions r.filePath
          r.fileType = .ok r) :=
  ⟨by decide,
    c10_index_consistency [⟨"vuln-pkg", "1.0.0", "packages.md"⟩]
      [⟨"vuln-pkg", "1.0.0", "/l", LockFileType.npm⟩] (by decide)⟩

end ShaiHulud
